import Mathlib

/-!
Verification development for the channel-migration pipeline of the
`ely_storage` repository (`src/services/discord-migrator.js`).

The JavaScript source is shallowly embedded below.  Strings are modelled as
`List Char`; the network (message-history pages, file download/registration,
webhook posting) and the caller-supplied progress callback are modelled as
explicit oracles returning `Except`; JavaScript exceptions become `Except`
values and every `try`/`catch` block of the source is an explicit `match`.
-/

namespace DiscordMigrator

/-- Strings of the JavaScript source, modelled as lists of characters. -/
abbrev Str := List Char

/-- Author of a message (`message.author` in the source). -/
structure Author where
  id : Str
  username : Str
  avatar : Option Str
deriving DecidableEq, Repr

/-- One attachment entry (`message.attachments[i]`); the source guards
`if (att.url)`, hence the optional url. -/
structure Attachment where
  url : Option Str
deriving DecidableEq, Repr

/-- One embed field (`embed.fields[i]`, a `name`/`value` pair; the source
reads only `value`). -/
structure EmbedField where
  name : Str
  value : Str
deriving DecidableEq, Repr

/-- One embed.  `image`/`thumbnail`/`video` model the optional chains
`embed.image?.url` etc.; an absent `fields` array is modelled as `[]`
(the source only ever iterates it); `description` keeps its optionality
because the rewriter branches on it. -/
structure Embed where
  image : Option Str
  thumbnail : Option Str
  video : Option Str
  fields : List EmbedField
  description : Option Str
deriving DecidableEq, Repr

/-- A fetched message.  `ts` is the send timestamp implicit in the
snowflake id, used only to state ordering properties. -/
structure Message where
  id : Str
  ts : Nat
  author : Author
  content : Str
  embeds : List Embed
  attachments : List Attachment
deriving DecidableEq, Repr

/-! ### The Discord CDN url pattern

`DISCORD_CDN_REGEX = /https?:\/\/(?:cdn\.discordapp\.com|media\.discordapp\.net)\/attachments\/[\w\/\-]+\.[\w]+/gi`

The matcher below implements this regular expression directly: since the
character classes exclude the dot, greedy matching is deterministic and
needs no backtracking.  `stripCI` consumes a literal case-insensitively
(the `i` flag), `matchCdnAt` returns the remainder after a match starting
at the head of the input, and `cdnMatchesAux` performs the global (`g`)
leftmost non-overlapping scan of `String.prototype.match`. -/

/-- Case-insensitive character normalisation (regex `i` flag). -/
def lc (c : Char) : Char := c.toLower

/-- Consume a literal (given lowercase) case-insensitively; return the rest. -/
def stripCI : Str → Str → Option Str
  | [], s => some s
  | _ :: _, [] => none
  | l :: ls, c :: cs => if lc c = lc l then stripCI ls cs else none

/-- Consume the optional `s` of `https?`. -/
def tryS : Str → Str
  | [] => []
  | c :: r => if lc c = 's' then r else c :: r

/-- Consume one of the two CDN hosts. -/
def hostStrip (s : Str) : Option Str :=
  match stripCI ("cdn.discordapp.com".toList) s with
  | some r => some r
  | none => stripCI ("media.discordapp.net".toList) s

/-- The regex class `[\w]` (with the `i` flag): ASCII letters, digits, `_`. -/
def classW (c : Char) : Bool := c.isAlpha || c.isDigit || c = '_'

/-- The regex class `[\w\/\-]`. -/
def classBody (c : Char) : Bool := classW c || c = '/' || c = '-'

/-- Consume `https?://(cdn.discordapp.com|media.discordapp.net)/attachments/`. -/
def matchPrefixCdn (s : Str) : Option Str :=
  match stripCI ("http".toList) s with
  | none => none
  | some s1 =>
    match stripCI ("://".toList) (tryS s1) with
    | none => none
    | some s3 =>
      match hostStrip s3 with
      | none => none
      | some s4 => stripCI ("/attachments/".toList) s4

/-- Match the full CDN pattern at the head of `s`; return the rest of the
input after the (greedy) match, or `none`. -/
def matchCdnAt (s : Str) : Option Str :=
  match matchPrefixCdn s with
  | none => none
  | some s5 =>
    match s5.dropWhile classBody with
    | [] => none
    | c :: s7 =>
      if s5.takeWhile classBody = [] then none
      else if c = '.' then
        if s7.takeWhile classW = [] then none
        else some (s7.dropWhile classW)
      else none

/-- Global scan (`/g` flag): leftmost matches, continuing after each match.
The fuel argument is the length of the scanned string: every step consumes
at least one character, so this is exact. -/
def cdnMatchesAux : Nat → Str → List Str
  | 0, _ => []
  | fuel + 1, s =>
    match s with
    | [] => []
    | c :: rest =>
      match matchCdnAt (c :: rest) with
      | some r =>
        (c :: rest).take ((c :: rest).length - r.length) ::
          cdnMatchesAux fuel (rest.drop (rest.length - r.length))
      | none => cdnMatchesAux fuel rest

/-- `text.match(DISCORD_CDN_REGEX)` — the list of matched substrings
(`null` becomes `[]`, as the source only iterates the result). -/
def cdnMatches (s : Str) : List Str := cdnMatchesAux s.length s

/-! ### `extractFileUrls` -/

/-- `Set.prototype.add`: JavaScript sets preserve first-insertion order. -/
def addUnique (acc : List Str) (u : Str) : List Str :=
  if u ∈ acc then acc else acc ++ [u]

/-- List of an optional url (used for `att.url`, `embed.image?.url`, …). -/
def optUrl : Option Str → List Str
  | some u => [u]
  | none => []

/-- Every url the source adds to the `Set`, in the order the source adds
them: attachments first, then per embed image, thumbnail, video, field
values and description, then message content.  Attachment and embed media
urls are added verbatim; field values, description and content are scanned
with the CDN regex. -/
def scanUrls (m : Message) : List Str :=
  (m.attachments.map (fun a => optUrl a.url)).flatten ++
  (m.embeds.map (fun e =>
    optUrl e.image ++ optUrl e.thumbnail ++ optUrl e.video ++
    (e.fields.map (fun f => cdnMatches f.value)).flatten ++
    (match e.description with
     | some d => cdnMatches d
     | none => []))).flatten ++
  cdnMatches m.content

/-- `extractFileUrls(message)`: insert every scanned url into a `Set` and
return `Array.from` of it. -/
def extractFileUrls (m : Message) : List Str :=
  (scanUrls m).foldl addUnique []

/-- The urls the source takes verbatim from structured fields, without
passing them through the CDN regex: attachment urls and embed
image/thumbnail/video urls. -/
def rawRefUrls (m : Message) : List Str :=
  (m.attachments.map (fun a => optUrl a.url)).flatten ++
  (m.embeds.map (fun e => optUrl e.image ++ optUrl e.thumbnail ++ optUrl e.video)).flatten

/-- First-occurrence deduplication, stated independently of `Set` folding:
keep each element's first occurrence, in order. -/
def dedupFirst : List Str → List Str
  | [] => []
  | u :: l => u :: dedupFirst (l.filter (fun v => v ≠ u))
termination_by l => l.length
decreasing_by
  simp only [List.length_cons]
  exact Nat.lt_succ_of_le (List.length_filter_le _ _)

/-! ### `replaceUrlsInMessage`

`escapeRegex` makes the pattern a literal string, so
`text.replace(new RegExp(escapeRegex(old), 'g'), new)` is global literal
substring replacement: scan left to right, on a match emit the replacement
and continue after the matched text.  The fuel argument is the length of
the scanned string; every step consumes at least one character, so this is
exact.  (Extracted urls are never empty, so the empty-pattern corner of
`String.prototype.replace` is not exercised; the model leaves the string
unchanged there.) -/

def replaceAllAux (src dst : Str) : Nat → Str → Str
  | 0, s => s
  | fuel + 1, s =>
    match s with
    | [] => []
    | c :: rest =>
      if src ≠ [] ∧ src.isPrefixOf (c :: rest) then
        dst ++ replaceAllAux src dst fuel (rest.drop (src.length - 1))
      else
        c :: replaceAllAux src dst fuel rest

/-- Global literal replacement of `src` by `dst`. -/
def replaceAll (src dst s : Str) : Str := replaceAllAux src dst s.length s

/-- `urlMap.forEach((newUrl, oldUrl) => text = text.replace(...))`: the map
entries are applied sequentially in insertion order. -/
def replaceAllMap (urlMap : List (Str × Str)) (s : Str) : Str :=
  urlMap.foldl (fun acc p => replaceAll p.1 p.2 acc) s

/-- `urlMap.has(url) ? urlMap.get(url) : url` on an optional media url. -/
def mediaLookup (urlMap : List (Str × Str)) : Option Str → Option Str
  | none => none
  | some u =>
    match urlMap.lookup u with
    | some d => some d
    | none => some u

/-- `replaceUrlsInMessage(message, urlMap)`: new content and a deep-copied
embed structure with every mapped url substituted — media urls by exact
map lookup, field values and description by global literal replacement. -/
def replaceUrlsInMessage (m : Message) (urlMap : List (Str × Str)) :
    Str × List Embed :=
  (replaceAllMap urlMap m.content,
   m.embeds.map (fun e =>
     { image := mediaLookup urlMap e.image
       thumbnail := mediaLookup urlMap e.thumbnail
       video := mediaLookup urlMap e.video
       fields := e.fields.map (fun f => { f with value := replaceAllMap urlMap f.value })
       description := e.description.map (fun d => replaceAllMap urlMap d) }))

/-! ### `migrateChannel` — data carried by one run -/

/-- One entry of `stats.errors`: the file-level catch pushes
`{messageId, url, error}`, the message-level catch `{messageId, error}`
(modelled with `url = none`). -/
structure ErrEntry where
  messageId : Str
  url : Option Str
  error : Str
deriving DecidableEq, Repr

/-- The `stats` accumulator of `migrateChannel`. -/
structure MigrationStats where
  totalMessages : Nat
  messagesWithFiles : Nat
  filesProcessed : Nat
  filesUploaded : Nat
  messagesPosted : Nat
  errors : List ErrEntry
deriving DecidableEq, Repr

/-- The events passed to `onProgress`.  Display texts are elided; the
numeric `processed`/`total` payloads and the final stats are kept. -/
inductive ProgressEvent where
  | fetching
  | processing (processed total : Nat)
  | completed (stats : MigrationStats)
  | error (message : Str)
deriving DecidableEq, Repr

/-- The `messageData` payload posted to the destination webhook. -/
structure MessageData where
  content : Str
  embeds : List Embed
  username : Str
  avatarUrl : Option Str
deriving DecidableEq, Repr

/-- Build `messageData` from a message (`message.content || ''`,
`message.embeds || []`, `message.author.username || 'Migrated User'`,
and the avatar url interpolation). -/
def mkMessageData (m : Message) : MessageData :=
  { content := m.content
    embeds := m.embeds
    username := if m.author.username = [] then "Migrated User".toList else m.author.username
    avatarUrl := m.author.avatar.map (fun a =>
      "https://cdn.discordapp.com/avatars/".toList ++ m.author.id ++
        "/".toList ++ a ++ ".png".toList) }

/-- The effectful collaborators of one run: `transfer` models
`downloadFile` followed by `uploadToStorage` (message id, source url ↦
destination download url or thrown error), `post` models
`postWebhookMessage` for the given message. -/
structure Oracle where
  transfer : Str → Str → Except Str Str
  post : Str → Except Str Unit

/-- The caller-supplied `onProgress` callback; `Except.error` models the
sink throwing while consuming the event. -/
abbrev Sink := ProgressEvent → Except Str Unit

/-- A sink that consumes every event without throwing. -/
def pureSink : Sink := fun _ => Except.ok ()

/-- Observable state of one run: the stats accumulator, the sequence of
events handed to `onProgress`, and the payloads successfully delivered to
the destination webhook. -/
structure Run where
  stats : MigrationStats
  trace : List ProgressEvent
  posted : List (Str × MessageData)
deriving DecidableEq, Repr

def emptyStats : MigrationStats := ⟨0, 0, 0, 0, 0, []⟩

/-! ### `migrateChannel` — control flow -/

/-- Body of `for (const url of fileUrls)` with its inner `try`/`catch`:
increment `filesProcessed`, emit a progress event (a sink exception is
caught by this very catch), transfer the file, record the url mapping and
increment `filesUploaded` on success, push a `{messageId, url, error}`
entry on failure. -/
def processFile (o : Oracle) (sink : Sink) (mid : Str) (shown total : Nat)
    (st : Run × List (Str × Str)) (url : Str) : Run × List (Str × Str) :=
  let r := st.1
  let urlMap := st.2
  let r1 : Run :=
    { r with
      stats := { r.stats with filesProcessed := r.stats.filesProcessed + 1 }
      trace := r.trace ++ [ProgressEvent.processing shown total] }
  match sink (ProgressEvent.processing shown total) with
  | Except.error e =>
    ({ r1 with stats := { r1.stats with errors := r1.stats.errors ++ [⟨mid, some url, e⟩] } },
     urlMap)
  | Except.ok _ =>
    match o.transfer mid url with
    | Except.error e =>
      ({ r1 with stats := { r1.stats with errors := r1.stats.errors ++ [⟨mid, some url, e⟩] } },
       urlMap)
    | Except.ok dst =>
      ({ r1 with stats := { r1.stats with filesUploaded := r1.stats.filesUploaded + 1 } },
       urlMap ++ [(url, dst)])

/-- The `if (fileUrls.length > 0)` block: increment `messagesWithFiles`
and run the per-file loop, building the per-message url map. -/
def fileLoop (o : Oracle) (sink : Sink) (mid : Str) (shown total : Nat)
    (urls : List Str) (r : Run) : Run × List (Str × Str) :=
  if urls = [] then (r, [])
  else
    urls.foldl (processFile o sink mid shown total)
      ({ r with stats := { r.stats with messagesWithFiles := r.stats.messagesWithFiles + 1 } },
       [])

/-- The posted payload: `messageData`, rewritten through
`replaceUrlsInMessage` only when the url map is non-empty
(`if (urlMap.size > 0)`). -/
def msgPayload (m : Message) (urlMap : List (Str × Str)) : MessageData :=
  if urlMap = [] then mkMessageData m
  else
    { mkMessageData m with
      content := (replaceUrlsInMessage m urlMap).1
      embeds := (replaceUrlsInMessage m urlMap).2 }

/-- The tail of the per-message `try`: post the payload, increment
`messagesPosted` and emit the posted event.  A thrown post, or a sink
exception on that event, is caught by the message-level catch and pushed
as `{messageId, error}` (in the latter case the post already succeeded,
so `messagesPosted` and the delivered payload remain). -/
def postPhase (o : Oracle) (sink : Sink) (total idx : Nat) (mid : Str)
    (md : MessageData) (r1 : Run) : Run :=
  match o.post mid with
  | Except.error e =>
    { r1 with stats := { r1.stats with errors := r1.stats.errors ++ [⟨mid, none, e⟩] } }
  | Except.ok _ =>
    match sink (ProgressEvent.processing (idx + 1) total) with
    | Except.error e =>
      { r1 with
        stats := { r1.stats with
          messagesPosted := r1.stats.messagesPosted + 1
          errors := r1.stats.errors ++ [⟨mid, none, e⟩] }
        posted := r1.posted ++ [(mid, md)]
        trace := r1.trace ++ [ProgressEvent.processing (idx + 1) total] }
    | Except.ok _ =>
      { r1 with
        stats := { r1.stats with messagesPosted := r1.stats.messagesPosted + 1 }
        posted := r1.posted ++ [(mid, md)]
        trace := r1.trace ++ [ProgressEvent.processing (idx + 1) total] }

/-- Body of the per-message loop with its `try`/`catch`: extract urls,
process the files (if any), rewrite with the accumulated url map (if
non-empty), then post. -/
def processMessage (o : Oracle) (sink : Sink) (total idx : Nat) (m : Message)
    (r : Run) : Run :=
  postPhase o sink total idx m.id
    (msgPayload m (fileLoop o sink m.id (idx + 1) total (extractFileUrls m) r).2)
    (fileLoop o sink m.id (idx + 1) total (extractFileUrls m) r).1

/-- The `for (let i = 0; ...)` loop over the (already reversed) messages. -/
def procMsgs (o : Oracle) (sink : Sink) (total : Nat) :
    Nat → List Message → Run → Run
  | _, [], r => r
  | idx, m :: rest, r =>
    procMsgs o sink total (idx + 1) rest (processMessage o sink total idx m r)

/-- The outer `catch`: emit an `error` event and rethrow; if the sink
itself throws while consuming the `error` event, that exception
propagates instead. -/
def outerCatch (sink : Sink) (r : Run) (e : Str) : Run × Except Str MigrationStats :=
  let r1 := { r with trace := r.trace ++ [ProgressEvent.error e] }
  match sink (ProgressEvent.error e) with
  | Except.ok _ => (r1, Except.error e)
  | Except.error e2 => (r1, Except.error e2)

/-- Run state after the fetch succeeded and both initial events were
emitted: fresh stats with `totalMessages` set, nothing posted yet. -/
def initRun (msgs : List Message) : Run :=
  { stats := { emptyStats with totalMessages := msgs.length }
    trace := [ProgressEvent.fetching, ProgressEvent.processing 0 msgs.length]
    posted := [] }

/-- `migrateChannel`: emit `fetching`, fetch (the outcome is the `fetched`
argument), reverse the history, emit the initial `processing` event,
process every message, then emit `completed` with the final stats.  Any
exception escaping those steps reaches the outer catch.  Returns the
observable run state and the function's own outcome (`Except.error` models
the rethrow reaching the caller). -/
def migrateChannel (fetched : Except Str (List Message)) (o : Oracle)
    (sink : Sink) : Run × Except Str MigrationStats :=
  let r0 : Run := { stats := emptyStats, trace := [ProgressEvent.fetching], posted := [] }
  match sink ProgressEvent.fetching with
  | Except.error e => outerCatch sink r0 e
  | Except.ok _ =>
    match fetched with
    | Except.error e => outerCatch sink r0 e
    | Except.ok history =>
      let msgs := history.reverse
      let r1 := initRun msgs
      match sink (ProgressEvent.processing 0 msgs.length) with
      | Except.error e => outerCatch sink r1 e
      | Except.ok _ =>
        let r2 := procMsgs o sink msgs.length 0 msgs r1
        let r3 := { r2 with trace := r2.trace ++ [ProgressEvent.completed r2.stats] }
        match sink (ProgressEvent.completed r2.stats) with
        | Except.error e => outerCatch sink r3 e
        | Except.ok _ => (r3, Except.ok r2.stats)

/-! ### `fetchChannelMessages`

The paginated history API is modelled as the channel's message list,
newest first: a page request with `before` cursor and page size `p`
returns the next `p` messages after the cursor, i.e. `take p` of the
remaining list.  The loop accumulates pages and stops on an empty page or
on a page shorter than the literal `100` (not the requested page size).
The fuel argument (`length + 1`) is enough because every iteration that
recurses consumes at least one message. -/

def fetchLoopAux (pageLimit : Nat) : Nat → List Message → List Message
  | 0, _ => []
  | fuel + 1, remaining =>
    if remaining.take pageLimit = [] then []
    else if (remaining.take pageLimit).length < 100 then remaining.take pageLimit
    else remaining.take pageLimit ++ fetchLoopAux pageLimit fuel (remaining.drop pageLimit)

/-- `fetchChannelMessages(botToken, channelId, threadId, limit)`: the bot
token and channel/thread ids only select which channel list is scanned,
so the model takes that list directly.  `params.limit = Math.min(limit, 100)`. -/
def fetchChannelMessages (limit : Nat) (channel : List Message) : List Message :=
  fetchLoopAux (min limit 100) (channel.length + 1) channel

/-! ### Derived observers used in the statements -/

/-- Stats after the first `k` messages of a run whose fetch succeeded. -/
def statsAfter (o : Oracle) (sink : Sink) (msgs : List Message) (k : Nat) :
    MigrationStats :=
  (procMsgs o sink msgs.length 0 (msgs.take k) (initRun msgs)).stats

/-- Total number of file urls extracted from a list of messages. -/
def urlCount (msgs : List Message) : Nat :=
  (msgs.map (fun m => (extractFileUrls m).length)).sum

/-- The two terminal events of the progress protocol. -/
def isTerminal : ProgressEvent → Bool
  | ProgressEvent.completed _ => true
  | ProgressEvent.error _ => true
  | _ => false

/-- The `{messageId, url, error}` entries produced by the per-file catch
for the failing urls of one message, in url order. -/
def fileFailures (o : Oracle) (mid : Str) (urls : List Str) : List ErrEntry :=
  urls.filterMap (fun u =>
    match o.transfer mid u with
    | Except.error e => some ⟨mid, some u, e⟩
    | Except.ok _ => none)

/-- The url map accumulated from the successful transfers of one message,
in url order. -/
def fileSuccesses (o : Oracle) (mid : Str) (urls : List Str) : List (Str × Str) :=
  urls.filterMap (fun u =>
    match o.transfer mid u with
    | Except.ok d => some (u, d)
    | Except.error _ => none)

/-! ## Helper lemmas -/

theorem mem_dedupFirst : ∀ (l : List Str) (u : Str), u ∈ dedupFirst l ↔ u ∈ l := by
  intro l
  induction l using dedupFirst.induct with
  | case1 => intro u; simp [dedupFirst]
  | case2 x xs ih =>
    intro u
    rw [dedupFirst]
    by_cases hx : u = x
    · subst hx; simp
    · simp only [List.mem_cons, ih, List.mem_filter]
      constructor
      · rintro (h | ⟨h, _⟩)
        · exact absurd h hx
        · exact Or.inr h
      · rintro (h | h)
        · exact absurd h hx
        · exact Or.inr ⟨h, by simpa using hx⟩

theorem nodup_dedupFirst : ∀ (l : List Str), (dedupFirst l).Nodup := by
  intro l
  induction l using dedupFirst.induct with
  | case1 => simp [dedupFirst]
  | case2 x xs ih =>
    rw [dedupFirst]
    refine List.nodup_cons.mpr ⟨?_, ih⟩
    intro hmem
    have := (mem_dedupFirst _ _).mp hmem
    simp at this

theorem foldl_addUnique : ∀ (l acc : List Str),
    l.foldl addUnique acc = acc ++ dedupFirst (l.filter (fun v => v ∉ acc)) := by
  intro l
  induction l with
  | nil => intro acc; simp [dedupFirst]
  | cons x xs ih =>
    intro acc
    rw [List.foldl_cons]
    by_cases hx : x ∈ acc
    · rw [show addUnique acc x = acc from if_pos hx, ih]
      congr 2
      rw [List.filter_cons]
      simp [hx]
    · rw [show addUnique acc x = acc ++ [x] from if_neg hx, ih]
      rw [List.filter_cons, if_pos (by simp [hx])]
      rw [dedupFirst, List.filter_filter, List.append_assoc, List.singleton_append]
      have hfil : List.filter (fun v => decide (v ∉ acc ++ [x])) xs
          = List.filter (fun a => decide (a ≠ x) && decide (a ∉ acc)) xs := by
        apply List.filter_congr
        intro a _
        by_cases hax : a = x
        · subst hax; simp
        · by_cases hacc : a ∈ acc <;> simp [hax, hacc]
      rw [hfil]

theorem fetchLoopAux_take :
    ∀ (fuel pl : Nat) (ch : List Message), ∃ k, fetchLoopAux pl fuel ch = ch.take k := by
  intro fuel
  induction fuel with
  | zero => exact fun pl ch => ⟨0, rfl⟩
  | succ f ih =>
    intro pl ch
    by_cases h1 : ch.take pl = []
    · exact ⟨0, by rw [fetchLoopAux, if_pos h1, List.take_zero]⟩
    · by_cases h2 : (ch.take pl).length < 100
      · exact ⟨pl, by rw [fetchLoopAux, if_neg h1, if_pos h2]⟩
      · obtain ⟨k, hk⟩ := ih pl (ch.drop pl)
        exact ⟨pl + k, by rw [fetchLoopAux, if_neg h1, if_neg h2, hk, List.take_add]⟩

theorem extractFileUrls_eq_dedupFirst (m : Message) :
    extractFileUrls m = dedupFirst (scanUrls m) := by
  rw [extractFileUrls, foldl_addUnique]
  simp

/-! ## Claim theorems -/

/-- Claim C5: `extractFileUrls` returns the scanned urls deduplicated to
their first occurrences, in scan order (attachments, then per embed
image/thumbnail/video, field values, description, then content); the
result has no duplicate urls and contains exactly the scanned urls. -/
theorem c5_extract_first_occurrence_dedup :
    ∀ m : Message,
      extractFileUrls m = dedupFirst (scanUrls m) ∧
      (extractFileUrls m).Nodup ∧
      (∀ u, u ∈ extractFileUrls m ↔ u ∈ scanUrls m) := by
  intro m
  have h := extractFileUrls_eq_dedupFirst m
  refine ⟨h, ?_, ?_⟩
  · rw [h]; exact nodup_dedupFirst _
  · intro u; rw [h]; exact mem_dedupFirst _ u

/-- Claim C9: rewriting with an empty url map returns the original
content and embed structure unchanged. -/
theorem c9_replace_empty_map :
    ∀ m : Message, replaceUrlsInMessage m [] = (m.content, m.embeds) := by
  intro m
  have hs : ∀ s : Str, replaceAllMap [] s = s := fun s => rfl
  have hm : ∀ o : Option Str, mediaLookup [] o = o := by
    intro o; cases o <;> rfl
  rw [replaceUrlsInMessage]
  refine Prod.ext (hs m.content) ?_
  show m.embeds.map _ = m.embeds
  have : ∀ e : Embed,
      Embed.mk (mediaLookup [] e.image) (mediaLookup [] e.thumbnail) (mediaLookup [] e.video)
        (e.fields.map (fun f => { f with value := replaceAllMap [] f.value }))
        (e.description.map (fun d => replaceAllMap [] d)) = e := by
    intro e
    cases e with
    | mk i t v fs d =>
      simp only [hm, hs]
      congr 1
      · exact List.map_id' fs
      · cases d <;> rfl
  simp only [this]
  exact List.map_id' m.embeds

/-- Claim C10: with a `limit` below 100 the fetch loop stops after the
first non-empty page (the exhaustion test compares against the literal
`100`), so it returns exactly the first `min limit 100 = limit` messages
even when more exist. -/
theorem c10_small_limit_single_page :
    ∀ (limit : Nat) (channel : List Message), limit < 100 →
      fetchChannelMessages limit channel = channel.take limit ∧
      (fetchChannelMessages limit channel).length ≤ min limit 100 := by
  intro limit ch h
  have hmin : min limit 100 = limit := Nat.min_eq_left (Nat.le_of_lt h)
  have heq : fetchChannelMessages limit ch = ch.take limit := by
    rw [fetchChannelMessages, hmin]
    by_cases h1 : ch.take limit = []
    · rw [fetchLoopAux, if_pos h1, h1]
    · have h2 : (ch.take limit).length < 100 := by
        have hle : (ch.take limit).length ≤ limit := by
          rw [List.length_take]; omega
        omega
      rw [fetchLoopAux, if_neg h1, if_pos h2]
  refine ⟨heq, ?_⟩
  rw [heq, hmin, List.length_take]
  omega

/-- Claim C1: if the channel history served by the API is newest-first
(strictly decreasing send timestamps), then the list accumulated by
`fetchChannelMessages` is, after the `messages.reverse()` step of
`migrateChannel`, strictly increasing by send order, and it is a
permutation of (exactly) the fetched messages. -/
theorem c1_reverse_restores_chronology :
    ∀ (limit : Nat) (channel : List Message),
      channel.Pairwise (fun a b => b.ts < a.ts) →
      (fetchChannelMessages limit channel).reverse.Pairwise (fun a b => a.ts < b.ts) ∧
      (fetchChannelMessages limit channel).reverse.Perm (fetchChannelMessages limit channel) := by
  intro limit ch h
  obtain ⟨k, hk⟩ := fetchLoopAux_take (ch.length + 1) (min limit 100) ch
  have hsub : List.Sublist (fetchChannelMessages limit ch) ch := by
    rw [fetchChannelMessages, hk]
    exact List.take_sublist k ch
  have hp : (fetchChannelMessages limit ch).Pairwise (fun a b => b.ts < a.ts) :=
    List.Pairwise.sublist hsub h
  exact ⟨List.pairwise_reverse.mpr hp, List.reverse_perm _⟩

/-! ## Stats accounting lemmas -/

theorem processFile_stats (o : Oracle) (sink : Sink) (mid : Str) (shown total : Nat)
    (st : Run × List (Str × Str)) (url : Str) :
    ((processFile o sink mid shown total st url).1.stats.totalMessages
        = st.1.stats.totalMessages) ∧
    ((processFile o sink mid shown total st url).1.stats.messagesWithFiles
        = st.1.stats.messagesWithFiles) ∧
    ((processFile o sink mid shown total st url).1.stats.messagesPosted
        = st.1.stats.messagesPosted) ∧
    ((processFile o sink mid shown total st url).1.stats.filesProcessed
        = st.1.stats.filesProcessed + 1) ∧
    (st.1.stats.filesUploaded
        ≤ (processFile o sink mid shown total st url).1.stats.filesUploaded) ∧
    ((processFile o sink mid shown total st url).1.stats.filesUploaded
        ≤ st.1.stats.filesUploaded + 1) ∧
    ((processFile o sink mid shown total st url).1.posted = st.1.posted) ∧
    (∃ l, (processFile o sink mid shown total st url).1.stats.errors
        = st.1.stats.errors ++ l) ∧
    ((processFile o sink mid shown total st url).1.trace.filter isTerminal
        = st.1.trace.filter isTerminal) := by
  rcases st with ⟨r, um⟩
  unfold processFile
  cases hsink : sink (ProgressEvent.processing shown total) with
  | error e => simp [List.filter_append, isTerminal]
  | ok _ =>
    cases htr : o.transfer mid url with
    | error e => simp [List.filter_append, isTerminal]
    | ok dst => simp [List.filter_append, isTerminal]

theorem processFiles_fold_stats (o : Oracle) (sink : Sink) (mid : Str)
    (shown total : Nat) :
    ∀ (urls : List Str) (st : Run × List (Str × Str)),
    ((urls.foldl (processFile o sink mid shown total) st).1.stats.totalMessages
        = st.1.stats.totalMessages) ∧
    ((urls.foldl (processFile o sink mid shown total) st).1.stats.messagesWithFiles
        = st.1.stats.messagesWithFiles) ∧
    ((urls.foldl (processFile o sink mid shown total) st).1.stats.messagesPosted
        = st.1.stats.messagesPosted) ∧
    ((urls.foldl (processFile o sink mid shown total) st).1.stats.filesProcessed
        = st.1.stats.filesProcessed + urls.length) ∧
    (st.1.stats.filesUploaded
        ≤ (urls.foldl (processFile o sink mid shown total) st).1.stats.filesUploaded) ∧
    ((urls.foldl (processFile o sink mid shown total) st).1.stats.filesUploaded
        ≤ st.1.stats.filesUploaded + urls.length) ∧
    ((urls.foldl (processFile o sink mid shown total) st).1.posted = st.1.posted) ∧
    (∃ l, (urls.foldl (processFile o sink mid shown total) st).1.stats.errors
        = st.1.stats.errors ++ l) ∧
    ((urls.foldl (processFile o sink mid shown total) st).1.trace.filter isTerminal
        = st.1.trace.filter isTerminal) := by
  intro urls
  induction urls with
  | nil =>
    intro st
    refine ⟨rfl, rfl, rfl, rfl, Nat.le_refl _, by simp, rfl, ⟨[], by simp⟩, rfl⟩
  | cons u us ih =>
    intro st
    rw [List.foldl_cons]
    obtain ⟨i1, i2, i3, i4, i5, i6, i7, ⟨l1, hl1⟩, i9⟩ :=
      ih (processFile o sink mid shown total st u)
    obtain ⟨j1, j2, j3, j4, j5, j6, j7, ⟨l2, hl2⟩, j9⟩ :=
      processFile_stats o sink mid shown total st u
    refine ⟨by omega, by omega, by omega, by rw [i4, j4]; simp [Nat.add_assoc, Nat.add_comm 1],
      Nat.le_trans j5 i5, by simp [List.length_cons] at *; omega,
      by rw [i7, j7], ⟨l2 ++ l1, by rw [hl1, hl2, List.append_assoc]⟩,
      by rw [i9, j9]⟩

theorem fileLoop_stats (o : Oracle) (sink : Sink) (mid : Str) (shown total : Nat)
    (urls : List Str) (r : Run) :
    ((fileLoop o sink mid shown total urls r).1.stats.totalMessages
        = r.stats.totalMessages) ∧
    (r.stats.messagesWithFiles
        ≤ (fileLoop o sink mid shown total urls r).1.stats.messagesWithFiles) ∧
    ((fileLoop o sink mid shown total urls r).1.stats.messagesWithFiles
        ≤ r.stats.messagesWithFiles + 1) ∧
    ((fileLoop o sink mid shown total urls r).1.stats.messagesPosted
        = r.stats.messagesPosted) ∧
    ((fileLoop o sink mid shown total urls r).1.stats.filesProcessed
        = r.stats.filesProcessed + urls.length) ∧
    (r.stats.filesUploaded
        ≤ (fileLoop o sink mid shown total urls r).1.stats.filesUploaded) ∧
    ((fileLoop o sink mid shown total urls r).1.stats.filesUploaded
        ≤ r.stats.filesUploaded + urls.length) ∧
    ((fileLoop o sink mid shown total urls r).1.posted = r.posted) ∧
    (∃ l, (fileLoop o sink mid shown total urls r).1.stats.errors
        = r.stats.errors ++ l) ∧
    ((fileLoop o sink mid shown total urls r).1.trace.filter isTerminal
        = r.trace.filter isTerminal) := by
  unfold fileLoop
  by_cases hurls : urls = []
  · rw [if_pos hurls, hurls]
    exact ⟨rfl, Nat.le_refl _, Nat.le_succ _, rfl, by simp, Nat.le_refl _, by simp, rfl,
      ⟨[], by simp⟩, rfl⟩
  · rw [if_neg hurls]
    dsimp only
    obtain ⟨f1, f2, f3, f4, f5, f6, f7, ⟨l1, hl1⟩, f9⟩ :=
      processFiles_fold_stats o sink mid shown total urls
        (Run.mk
          (MigrationStats.mk r.stats.totalMessages (r.stats.messagesWithFiles + 1)
            r.stats.filesProcessed r.stats.filesUploaded r.stats.messagesPosted
            r.stats.errors)
          r.trace r.posted, [])
    dsimp only at f1 f2 f3 f4 f5 f6 f7 hl1 f9
    exact ⟨f1, by omega, by omega, f3, f4, f5, f6, f7, ⟨l1, hl1⟩, f9⟩

theorem postPhase_stats (o : Oracle) (sink : Sink) (total idx : Nat) (mid : Str)
    (md : MessageData) (r1 : Run) :
    ((postPhase o sink total idx mid md r1).stats.totalMessages
        = r1.stats.totalMessages) ∧
    ((postPhase o sink total idx mid md r1).stats.messagesWithFiles
        = r1.stats.messagesWithFiles) ∧
    ((postPhase o sink total idx mid md r1).stats.filesProcessed
        = r1.stats.filesProcessed) ∧
    ((postPhase o sink total idx mid md r1).stats.filesUploaded
        = r1.stats.filesUploaded) ∧
    (r1.stats.messagesPosted
        ≤ (postPhase o sink total idx mid md r1).stats.messagesPosted) ∧
    ((postPhase o sink total idx mid md r1).stats.messagesPosted
        ≤ r1.stats.messagesPosted + 1) ∧
    (∃ l, (postPhase o sink total idx mid md r1).stats.errors
        = r1.stats.errors ++ l) ∧
    (∃ l, (postPhase o sink total idx mid md r1).posted = r1.posted ++ l) ∧
    ((postPhase o sink total idx mid md r1).trace.filter isTerminal
        = r1.trace.filter isTerminal) := by
  unfold postPhase
  cases hpost : o.post mid with
  | error e =>
    exact ⟨rfl, rfl, rfl, rfl, Nat.le_refl _, Nat.le_succ _, ⟨[⟨mid, none, e⟩], rfl⟩,
      ⟨[], (List.append_nil _).symm⟩, rfl⟩
  | ok u =>
    cases hsink : sink (ProgressEvent.processing (idx + 1) total) with
    | error e =>
      refine ⟨rfl, rfl, rfl, rfl, Nat.le_succ _, Nat.le_refl _, ⟨[⟨mid, none, e⟩], rfl⟩,
        ⟨[(mid, md)], rfl⟩, ?_⟩
      dsimp only
      simp [List.filter_append, isTerminal]
    | ok v =>
      refine ⟨rfl, rfl, rfl, rfl, Nat.le_succ _, Nat.le_refl _, ⟨[], (List.append_nil _).symm⟩,
        ⟨[(mid, md)], rfl⟩, ?_⟩
      dsimp only
      simp [List.filter_append, isTerminal]

theorem processMessage_stats (o : Oracle) (sink : Sink) (total idx : Nat)
    (m : Message) (r : Run) :
    ((processMessage o sink total idx m r).stats.totalMessages
        = r.stats.totalMessages) ∧
    (r.stats.messagesWithFiles
        ≤ (processMessage o sink total idx m r).stats.messagesWithFiles) ∧
    ((processMessage o sink total idx m r).stats.messagesWithFiles
        ≤ r.stats.messagesWithFiles + 1) ∧
    ((processMessage o sink total idx m r).stats.filesProcessed
        = r.stats.filesProcessed + (extractFileUrls m).length) ∧
    (r.stats.filesUploaded
        ≤ (processMessage o sink total idx m r).stats.filesUploaded) ∧
    ((processMessage o sink total idx m r).stats.filesUploaded
        ≤ r.stats.filesUploaded + (extractFileUrls m).length) ∧
    (r.stats.messagesPosted
        ≤ (processMessage o sink total idx m r).stats.messagesPosted) ∧
    ((processMessage o sink total idx m r).stats.messagesPosted
        ≤ r.stats.messagesPosted + 1) ∧
    (∃ l, (processMessage o sink total idx m r).stats.errors
        = r.stats.errors ++ l) ∧
    ((processMessage o sink total idx m r).trace.filter isTerminal
        = r.trace.filter isTerminal) := by
  obtain ⟨f1, f2, f3, f4, f5, f6, f7, f8, ⟨l1, hl1⟩, f10⟩ :=
    fileLoop_stats o sink m.id (idx + 1) total (extractFileUrls m) r
  obtain ⟨p1, p2, p3, p4, p5, p6, ⟨l2, hl2⟩, ⟨l3, _⟩, p9⟩ :=
    postPhase_stats o sink total idx m.id
      (msgPayload m (fileLoop o sink m.id (idx + 1) total (extractFileUrls m) r).2)
      (fileLoop o sink m.id (idx + 1) total (extractFileUrls m) r).1
  unfold processMessage
  exact ⟨by omega, by omega, by omega, by omega, by omega, by omega, by omega, by omega,
    ⟨l1 ++ l2, by rw [hl2, hl1, List.append_assoc]⟩, by rw [p9, f10]⟩

theorem procMsgs_append (o : Oracle) (sink : Sink) (total : Nat) :
    ∀ (l1 l2 : List Message) (idx : Nat) (r : Run),
      procMsgs o sink total idx (l1 ++ l2) r
        = procMsgs o sink total (idx + l1.length) l2 (procMsgs o sink total idx l1 r) := by
  intro l1
  induction l1 with
  | nil => intro l2 idx r; simp [procMsgs]
  | cons m ms ih =>
    intro l2 idx r
    rw [List.cons_append, procMsgs, procMsgs, ih]
    congr 1
    simp [List.length_cons]
    omega

theorem procMsgs_stats (o : Oracle) (sink : Sink) (total : Nat) :
    ∀ (msgs : List Message) (idx : Nat) (r : Run),
    ((procMsgs o sink total idx msgs r).stats.totalMessages = r.stats.totalMessages) ∧
    (r.stats.messagesWithFiles
        ≤ (procMsgs o sink total idx msgs r).stats.messagesWithFiles) ∧
    ((procMsgs o sink total idx msgs r).stats.filesProcessed
        = r.stats.filesProcessed + urlCount msgs) ∧
    (r.stats.filesUploaded ≤ (procMsgs o sink total idx msgs r).stats.filesUploaded) ∧
    ((procMsgs o sink total idx msgs r).stats.filesUploaded + r.stats.filesProcessed
        ≤ r.stats.filesUploaded + (procMsgs o sink total idx msgs r).stats.filesProcessed) ∧
    (r.stats.messagesPosted ≤ (procMsgs o sink total idx msgs r).stats.messagesPosted) ∧
    ((procMsgs o sink total idx msgs r).stats.messagesPosted
        ≤ r.stats.messagesPosted + msgs.length) ∧
    (∃ l, (procMsgs o sink total idx msgs r).stats.errors = r.stats.errors ++ l) ∧
    ((procMsgs o sink total idx msgs r).trace.filter isTerminal
        = r.trace.filter isTerminal) := by
  intro msgs
  induction msgs with
  | nil =>
    intro idx r
    exact ⟨rfl, Nat.le_refl _, by simp [urlCount, procMsgs], Nat.le_refl _, Nat.le_refl _,
      Nat.le_refl _, by simp [procMsgs], ⟨[], by simp [procMsgs]⟩, rfl⟩
  | cons m ms ih =>
    intro idx r
    rw [procMsgs]
    obtain ⟨a1, a2, a3, a4, a5, a6, a7, a8, ⟨l1, hl1⟩, a10⟩ :=
      processMessage_stats o sink total idx m r
    obtain ⟨b1, b2, b3, b4, b5, b6, b7, ⟨l2, hl2⟩, b9⟩ :=
      ih (idx + 1) (processMessage o sink total idx m r)
    have hc : urlCount (m :: ms) = (extractFileUrls m).length + urlCount ms := by
      simp [urlCount]
    have hlen : (m :: ms).length = ms.length + 1 := by simp
    refine ⟨by omega, by omega, by omega, by omega, by omega, by omega, by omega,
      ⟨l1 ++ l2, by rw [hl2, hl1, List.append_assoc]⟩, by rw [b9, a10]⟩

/-- Claim C2: within one run the stats counters never decrease from one
processed message to the next, and at every point
`filesUploaded ≤ filesProcessed ≤ Σ(extracted urls of processed messages)`
and `messagesPosted ≤ totalMessages` hold. -/
theorem c2_stats_monotone_consistent :
    ∀ (o : Oracle) (sink : Sink) (msgs : List Message) (k : Nat),
      ((statsAfter o sink msgs k).totalMessages = msgs.length) ∧
      ((statsAfter o sink msgs k).totalMessages
          ≤ (statsAfter o sink msgs (k + 1)).totalMessages) ∧
      ((statsAfter o sink msgs k).messagesWithFiles
          ≤ (statsAfter o sink msgs (k + 1)).messagesWithFiles) ∧
      ((statsAfter o sink msgs k).filesProcessed
          ≤ (statsAfter o sink msgs (k + 1)).filesProcessed) ∧
      ((statsAfter o sink msgs k).filesUploaded
          ≤ (statsAfter o sink msgs (k + 1)).filesUploaded) ∧
      ((statsAfter o sink msgs k).messagesPosted
          ≤ (statsAfter o sink msgs (k + 1)).messagesPosted) ∧
      ((statsAfter o sink msgs k).filesUploaded
          ≤ (statsAfter o sink msgs k).filesProcessed) ∧
      ((statsAfter o sink msgs k).filesProcessed ≤ urlCount (msgs.take k)) ∧
      ((statsAfter o sink msgs k).messagesPosted
          ≤ (statsAfter o sink msgs k).totalMessages) := by
  intro o sink msgs k
  obtain ⟨k1, k2, k3, k4, k5, k6, k7, _, _⟩ :=
    procMsgs_stats o sink msgs.length (msgs.take k) 0 (initRun msgs)
  have hi1 : (initRun msgs).stats.totalMessages = msgs.length := rfl
  have hi2 : (initRun msgs).stats.messagesWithFiles = 0 := rfl
  have hi3 : (initRun msgs).stats.filesProcessed = 0 := rfl
  have hi4 : (initRun msgs).stats.filesUploaded = 0 := rfl
  have hi5 : (initRun msgs).stats.messagesPosted = 0 := rfl
  have htl : (msgs.take k).length ≤ msgs.length := by
    rw [List.length_take]; omega
  have hstep : msgs.take (k + 1) = msgs.take k ++ (msgs[k]?).toList := List.take_succ
  cases hk : msgs[k]? with
  | none =>
    have heq : statsAfter o sink msgs (k + 1) = statsAfter o sink msgs k := by
      rw [statsAfter, statsAfter, hstep, hk]
      simp
    rw [heq]
    rw [statsAfter]
    exact ⟨by omega, Nat.le_refl _, Nat.le_refl _, Nat.le_refl _, Nat.le_refl _,
      Nat.le_refl _, by omega, by omega, by omega⟩
  | some m =>
    have heq : statsAfter o sink msgs (k + 1)
        = (processMessage o sink msgs.length (0 + (msgs.take k).length) m
            (procMsgs o sink msgs.length 0 (msgs.take k) (initRun msgs))).stats := by
      rw [statsAfter, hstep, hk, procMsgs_append]
      rfl
    obtain ⟨s1, s2, s3, s4, s5, s6, s7, s8, _, _⟩ :=
      processMessage_stats o sink msgs.length (0 + (msgs.take k).length) m
        (procMsgs o sink msgs.length 0 (msgs.take k) (initRun msgs))
    rw [heq]
    rw [statsAfter]
    exact ⟨by omega, by omega, by omega, by omega, by omega, by omega, by omega,
      by omega, by omega⟩

/-! ## Exact characterisation of one message's processing (non-throwing sink) -/

theorem processFiles_fold_pure (o : Oracle) (mid : Str) (shown total : Nat) :
    ∀ (urls : List Str) (r : Run) (um : List (Str × Str)),
    ((urls.foldl (processFile o pureSink mid shown total) (r, um)).1.stats.errors
        = r.stats.errors ++ fileFailures o mid urls) ∧
    ((urls.foldl (processFile o pureSink mid shown total) (r, um)).1.stats.filesProcessed
        = r.stats.filesProcessed + urls.length) ∧
    ((urls.foldl (processFile o pureSink mid shown total) (r, um)).1.stats.filesUploaded
        = r.stats.filesUploaded + (fileSuccesses o mid urls).length) ∧
    ((urls.foldl (processFile o pureSink mid shown total) (r, um)).2
        = um ++ fileSuccesses o mid urls) ∧
    ((urls.foldl (processFile o pureSink mid shown total) (r, um)).1.posted
        = r.posted) := by
  intro urls
  induction urls with
  | nil =>
    intro r um
    exact ⟨by simp [fileFailures], by simp, by simp [fileSuccesses],
      by simp [fileSuccesses], rfl⟩
  | cons u us ih =>
    intro r um
    rw [List.foldl_cons]
    have hpf : processFile o pureSink mid shown total (r, um) u
        = (match o.transfer mid u with
           | Except.error e =>
             (Run.mk
               (MigrationStats.mk r.stats.totalMessages r.stats.messagesWithFiles
                 (r.stats.filesProcessed + 1) r.stats.filesUploaded
                 r.stats.messagesPosted
                 (r.stats.errors ++ [⟨mid, some u, e⟩]))
               (r.trace ++ [ProgressEvent.processing shown total]) r.posted, um)
           | Except.ok dst =>
             (Run.mk
               (MigrationStats.mk r.stats.totalMessages r.stats.messagesWithFiles
                 (r.stats.filesProcessed + 1) (r.stats.filesUploaded + 1)
                 r.stats.messagesPosted r.stats.errors)
               (r.trace ++ [ProgressEvent.processing shown total]) r.posted,
              um ++ [(u, dst)])) := rfl
    cases htr : o.transfer mid u with
    | error e =>
      rw [hpf, htr]
      obtain ⟨i1, i2, i3, i4, i5⟩ := ih
        (Run.mk
          (MigrationStats.mk r.stats.totalMessages r.stats.messagesWithFiles
            (r.stats.filesProcessed + 1) r.stats.filesUploaded r.stats.messagesPosted
            (r.stats.errors ++ [⟨mid, some u, e⟩]))
          (r.trace ++ [ProgressEvent.processing shown total]) r.posted) um
      dsimp only at i1 i2 i3 i4 i5 ⊢
      refine ⟨?_, by simp only [List.length_cons]; omega, ?_, ?_, i5⟩
      · rw [i1, List.append_assoc]
        congr 1
        simp [fileFailures, List.filterMap_cons, htr]
      · rw [i3]
        congr 1
        simp [fileSuccesses, List.filterMap_cons, htr]
      · rw [i4]
        simp [fileSuccesses, List.filterMap_cons, htr]
    | ok dst =>
      rw [hpf, htr]
      obtain ⟨i1, i2, i3, i4, i5⟩ := ih
        (Run.mk
          (MigrationStats.mk r.stats.totalMessages r.stats.messagesWithFiles
            (r.stats.filesProcessed + 1) (r.stats.filesUploaded + 1)
            r.stats.messagesPosted r.stats.errors)
          (r.trace ++ [ProgressEvent.processing shown total]) r.posted)
        (um ++ [(u, dst)])
      dsimp only at i1 i2 i3 i4 i5 ⊢
      refine ⟨?_, by simp only [List.length_cons]; omega, ?_, ?_, i5⟩
      · rw [i1]
        congr 1
        simp [fileFailures, List.filterMap_cons, htr]
      · rw [i3]
        simp [fileSuccesses, List.filterMap_cons, htr]
        omega
      · rw [i4]
        simp [fileSuccesses, List.filterMap_cons, htr]

theorem fileLoop_pure (o : Oracle) (mid : Str) (shown total : Nat)
    (urls : List Str) (r : Run) :
    ((fileLoop o pureSink mid shown total urls r).1.stats.errors
        = r.stats.errors ++ fileFailures o mid urls) ∧
    ((fileLoop o pureSink mid shown total urls r).1.stats.filesProcessed
        = r.stats.filesProcessed + urls.length) ∧
    ((fileLoop o pureSink mid shown total urls r).1.stats.filesUploaded
        = r.stats.filesUploaded + (fileSuccesses o mid urls).length) ∧
    ((fileLoop o pureSink mid shown total urls r).2 = fileSuccesses o mid urls) ∧
    ((fileLoop o pureSink mid shown total urls r).1.posted = r.posted) := by
  unfold fileLoop
  by_cases hurls : urls = []
  · rw [if_pos hurls, hurls]
    exact ⟨by simp [fileFailures], by simp, by simp [fileSuccesses],
      by simp [fileSuccesses], rfl⟩
  · rw [if_neg hurls]
    obtain ⟨i1, i2, i3, i4, i5⟩ :=
      processFiles_fold_pure o mid shown total urls
        (Run.mk
          (MigrationStats.mk r.stats.totalMessages (r.stats.messagesWithFiles + 1)
            r.stats.filesProcessed r.stats.filesUploaded r.stats.messagesPosted
            r.stats.errors)
          r.trace r.posted) []
    dsimp only at i1 i2 i3 i4 i5
    exact ⟨i1, i2, i3, by simpa using i4, i5⟩

/-- Claim C3: when a message's post succeeds, every failing transfer of
that message contributes exactly one `{messageId, url, error}` entry (in
url order), all urls are still attempted, the message is still posted —
rewritten only through the map of successful transfers (so failed urls
stay unreplaced; with no success the original payload is posted) — and
the per-message loop continues with the remaining messages. -/
theorem c3_file_failure_isolated :
    ∀ (o : Oracle) (m : Message) (total idx : Nat) (r : Run) (rest : List Message),
      o.post m.id = Except.ok () →
      ((processMessage o pureSink total idx m r).stats.errors
          = r.stats.errors ++ fileFailures o m.id (extractFileUrls m)) ∧
      ((processMessage o pureSink total idx m r).stats.filesProcessed
          = r.stats.filesProcessed + (extractFileUrls m).length) ∧
      ((processMessage o pureSink total idx m r).stats.filesUploaded
          = r.stats.filesUploaded + (fileSuccesses o m.id (extractFileUrls m)).length) ∧
      ((processMessage o pureSink total idx m r).posted
          = r.posted ++ [(m.id, msgPayload m (fileSuccesses o m.id (extractFileUrls m)))]) ∧
      (procMsgs o pureSink total idx (m :: rest) r
          = procMsgs o pureSink total (idx + 1) rest (processMessage o pureSink total idx m r)) := by
  intro o m total idx r rest hpost
  obtain ⟨i1, i2, i3, i4, i5⟩ :=
    fileLoop_pure o m.id (idx + 1) total (extractFileUrls m) r
  have hpp : ∀ (md : MessageData) (r1 : Run),
      postPhase o pureSink total idx m.id md r1
        = Run.mk
            (MigrationStats.mk r1.stats.totalMessages r1.stats.messagesWithFiles
              r1.stats.filesProcessed r1.stats.filesUploaded
              (r1.stats.messagesPosted + 1) r1.stats.errors)
            (r1.trace ++ [ProgressEvent.processing (idx + 1) total])
            (r1.posted ++ [(m.id, md)]) := by
    intro md r1
    unfold postPhase
    rw [hpost]
    rfl
  have hcont : procMsgs o pureSink total idx (m :: rest) r
      = procMsgs o pureSink total (idx + 1) rest (processMessage o pureSink total idx m r) :=
    rfl
  refine ⟨?_, ?_, ?_, ?_, hcont⟩
  · unfold processMessage
    rw [hpp]
    exact i1
  · unfold processMessage
    rw [hpp]
    exact i2
  · unfold processMessage
    rw [hpp]
    exact i3
  · unfold processMessage
    rw [hpp]
    dsimp only
    rw [i5, i4]

/-! ## The progress protocol under a non-throwing sink -/

theorem migrateChannel_pureSink_ok (history : List Message) (o : Oracle) :
    migrateChannel (Except.ok history) o pureSink
      = (Run.mk
          (procMsgs o pureSink history.reverse.length 0 history.reverse
            (initRun history.reverse)).stats
          ((procMsgs o pureSink history.reverse.length 0 history.reverse
              (initRun history.reverse)).trace
            ++ [ProgressEvent.completed
                  (procMsgs o pureSink history.reverse.length 0 history.reverse
                    (initRun history.reverse)).stats])
          (procMsgs o pureSink history.reverse.length 0 history.reverse
            (initRun history.reverse)).posted,
         Except.ok
           (procMsgs o pureSink history.reverse.length 0 history.reverse
             (initRun history.reverse)).stats) := rfl

theorem migrateChannel_pureSink_err (e : Str) (o : Oracle) :
    migrateChannel (Except.error e) o pureSink
      = (Run.mk emptyStats [ProgressEvent.fetching, ProgressEvent.error e] [],
         Except.error e) := rfl

/-- Claim C4: with a consuming (non-throwing) progress sink, every run
emits exactly one terminal event — `completed` carrying the final stats
when the fetch succeeded, `error` when it failed — and a message-level
exception (a thrown post) is caught, recorded under that message's id,
and never produces a terminal `error` event. -/
theorem c4_one_terminal_event :
    ∀ (fetched : Except Str (List Message)) (o : Oracle),
      (((migrateChannel fetched o pureSink).1.trace.filter isTerminal).length = 1) ∧
      (∀ history, fetched = Except.ok history →
        ∃ st, (migrateChannel fetched o pureSink).2 = Except.ok st ∧
          ((migrateChannel fetched o pureSink).1.trace.filter isTerminal)
            = [ProgressEvent.completed st]) ∧
      (∀ e, fetched = Except.error e →
        (migrateChannel fetched o pureSink).2 = Except.error e ∧
          ((migrateChannel fetched o pureSink).1.trace.filter isTerminal)
            = [ProgressEvent.error e]) ∧
      (∀ (total idx : Nat) (m : Message) (r : Run) (e : Str),
        o.post m.id = Except.error e →
        (∃ l, (processMessage o pureSink total idx m r).stats.errors
            = r.stats.errors ++ l ++ [⟨m.id, none, e⟩]) ∧
        ((processMessage o pureSink total idx m r).trace.filter isTerminal
            = r.trace.filter isTerminal)) := by
  intro fetched o
  have hproc : ∀ (history : List Message),
      ((procMsgs o pureSink history.reverse.length 0 history.reverse
        (initRun history.reverse)).trace.filter isTerminal) = [] := by
    intro history
    obtain ⟨_, _, _, _, _, _, _, _, htr⟩ :=
      procMsgs_stats o pureSink history.reverse.length history.reverse 0
        (initRun history.reverse)
    rw [htr]
    rfl
  have hmain : (((migrateChannel fetched o pureSink).1.trace.filter isTerminal).length = 1) ∧
      (∀ history, fetched = Except.ok history →
        ∃ st, (migrateChannel fetched o pureSink).2 = Except.ok st ∧
          ((migrateChannel fetched o pureSink).1.trace.filter isTerminal)
            = [ProgressEvent.completed st]) ∧
      (∀ e, fetched = Except.error e →
        (migrateChannel fetched o pureSink).2 = Except.error e ∧
          ((migrateChannel fetched o pureSink).1.trace.filter isTerminal)
            = [ProgressEvent.error e]) := by
    cases fetched with
    | ok history =>
      rw [migrateChannel_pureSink_ok]
      refine ⟨?_, ?_, ?_⟩
      · dsimp only
        rw [List.filter_append, hproc]
        rfl
      · intro h hh
        refine ⟨_, rfl, ?_⟩
        dsimp only
        rw [List.filter_append, hproc]
        injection hh with hh
        subst hh
        rfl
      · intro e he
        exact absurd he (by simp)
    | error e =>
      rw [migrateChannel_pureSink_err]
      refine ⟨rfl, ?_, ?_⟩
      · intro h hh
        exact absurd hh (by simp)
      · intro e2 he
        injection he with he
        subst he
        exact ⟨rfl, rfl⟩
  refine ⟨hmain.1, hmain.2.1, hmain.2.2, ?_⟩
  intro total idx m r e hpost
  obtain ⟨f1, _, _, _, _, _, _, _, ⟨l1, hl1⟩, f10⟩ :=
    fileLoop_stats o pureSink m.id (idx + 1) total (extractFileUrls m) r
  unfold processMessage
  have hpp : ∀ (md : MessageData) (r1 : Run),
      postPhase o pureSink total idx m.id md r1
        = Run.mk
            (MigrationStats.mk r1.stats.totalMessages r1.stats.messagesWithFiles
              r1.stats.filesProcessed r1.stats.filesUploaded r1.stats.messagesPosted
              (r1.stats.errors ++ [⟨m.id, none, e⟩]))
            r1.trace r1.posted := by
    intro md r1
    unfold postPhase
    rw [hpost]
  rw [hpp]
  exact ⟨⟨l1, by rw [hl1]⟩, f10⟩

/-! ## Concrete fixtures for witnesses and counterexamples -/

/-- A CDN attachment url used by the concrete scenarios. -/
def cdnUrl1 : Str := "https://cdn.discordapp.com/attachments/1/f.png".toList

/-- A message with a single attached file and no other urls. -/
def msgOneFile : Message :=
  { id := "42".toList, ts := 1
    author := { id := "9".toList, username := "u".toList, avatar := none }
    content := [], embeds := [], attachments := [⟨some cdnUrl1⟩] }

/-- Collaborators where every transfer fails (download timeout) and every
post succeeds. -/
def failOracle : Oracle :=
  { transfer := fun _ _ => Except.error ("timeout".toList)
    post := fun _ => Except.ok () }

/-- Collaborators where every transfer and every post succeed. -/
def okOracle : Oracle :=
  { transfer := fun _ _ => Except.ok ("http://local/d/x".toList)
    post := fun _ => Except.ok () }

/-- Collaborators where transfers succeed and every post fails. -/
def postFailOracle : Oracle :=
  { transfer := fun _ _ => Except.ok ("http://local/d/x".toList)
    post := fun _ => Except.error ("post down".toList) }

/-- A progress sink that throws on every event. -/
def badSink : Sink := fun _ => Except.error ("sink down".toList)

/-- A progress sink that consumes the fetching, initial-processing and
terminal events but throws on every per-message progress event. -/
def perMsgThrowSink : Sink := fun e =>
  match e with
  | ProgressEvent.processing p _ =>
    if p = 0 then Except.ok () else Except.error ("sink boom".toList)
  | _ => Except.ok ()

/-- A minimal message with the given id digit and timestamp. -/
def plainMsg (n : Nat) : Message :=
  { id := [Char.ofNat (48 + n)], ts := n
    author := { id := "9".toList, username := "u".toList, avatar := none }
    content := [], embeds := [], attachments := [] }

/-- A seven-message channel history, newest first. -/
def chan7 : List Message :=
  [plainMsg 7, plainMsg 6, plainMsg 5, plainMsg 4, plainMsg 3, plainMsg 2, plainMsg 1]

/-- Witness for C10: with `limit = 5` on a seven-message channel the fetch
returns only the first page of five messages although two more exist. -/
theorem c10_small_limit_single_page_witness :
    5 < 100 ∧ chan7.length = 7 ∧
    fetchChannelMessages 5 chan7 = chan7.take 5 ∧
    (fetchChannelMessages 5 chan7).length ≤ min 5 100 :=
  ⟨by decide, by decide,
   (c10_small_limit_single_page 5 chan7 (by decide)).1,
   (c10_small_limit_single_page 5 chan7 (by decide)).2⟩

/-- Witness for C1: on a concrete newest-first history the reversed fetch
result is oldest-first and a permutation of the fetched messages. -/
theorem c1_reverse_restores_chronology_witness :
    chan7.Pairwise (fun a b => b.ts < a.ts) ∧
    (fetchChannelMessages 100 chan7).reverse.Pairwise (fun a b => a.ts < b.ts) ∧
    (fetchChannelMessages 100 chan7).reverse.Perm (fetchChannelMessages 100 chan7) :=
  ⟨by decide,
   (c1_reverse_restores_chronology 100 chan7 (by decide)).1,
   (c1_reverse_restores_chronology 100 chan7 (by decide)).2⟩

/-- Witness for C3, the spec's timeout scenario: one referenced file whose
download fails — one error entry naming the message and url,
`filesProcessed = 1`, `filesUploaded = 0`, and the message is still posted
with its original payload. -/
theorem c3_file_failure_isolated_witness :
    ((processMessage failOracle pureSink 1 0 msgOneFile (initRun [msgOneFile])).stats.errors
        = (initRun [msgOneFile]).stats.errors
            ++ fileFailures failOracle msgOneFile.id (extractFileUrls msgOneFile)) ∧
    ((processMessage failOracle pureSink 1 0 msgOneFile (initRun [msgOneFile])).stats.errors
        = [⟨msgOneFile.id, some cdnUrl1, "timeout".toList⟩]) ∧
    ((processMessage failOracle pureSink 1 0 msgOneFile (initRun [msgOneFile])).stats.filesProcessed
        = 1) ∧
    ((processMessage failOracle pureSink 1 0 msgOneFile (initRun [msgOneFile])).stats.filesUploaded
        = 0) ∧
    ((processMessage failOracle pureSink 1 0 msgOneFile (initRun [msgOneFile])).posted
        = [(msgOneFile.id, mkMessageData msgOneFile)]) :=
  ⟨(c3_file_failure_isolated failOracle msgOneFile 1 0 (initRun [msgOneFile]) [] rfl).1,
   by decide, by decide, by decide, by decide⟩

/-- Witness for C4: a run whose fetch succeeded but whose every post
throws still terminates with a single `completed` event, the post
exception recorded under the message id. -/
theorem c4_one_terminal_event_witness :
    (((migrateChannel (Except.ok [msgOneFile]) postFailOracle pureSink).1.trace.filter
        isTerminal).length = 1) ∧
    (∃ st, (migrateChannel (Except.ok [msgOneFile]) postFailOracle pureSink).2
        = Except.ok st ∧
      ((migrateChannel (Except.ok [msgOneFile]) postFailOracle pureSink).1.trace.filter
          isTerminal) = [ProgressEvent.completed st]) ∧
    ((∃ l, (processMessage postFailOracle pureSink 1 0 msgOneFile
          (initRun [msgOneFile])).stats.errors
        = (initRun [msgOneFile]).stats.errors ++ l
            ++ [⟨msgOneFile.id, none, "post down".toList⟩]) ∧
      ((processMessage postFailOracle pureSink 1 0 msgOneFile
          (initRun [msgOneFile])).trace.filter isTerminal
        = (initRun [msgOneFile]).trace.filter isTerminal)) :=
  ⟨(c4_one_terminal_event (Except.ok [msgOneFile]) postFailOracle).1,
   (c4_one_terminal_event (Except.ok [msgOneFile]) postFailOracle).2.1 [msgOneFile] rfl,
   (c4_one_terminal_event (Except.ok [msgOneFile]) postFailOracle).2.2.2 1 0 msgOneFile
     (initRun [msgOneFile]) ("post down".toList) rfl⟩

/-- Counterexample for C8: a sink that throws while consuming the very
first `fetching` event crashes the whole run — the exception reaches the
caller, no message is processed and nothing is posted, contradicting the
claim that a sink failure never crashes the pipeline. -/
theorem c8_sink_crash_counterexample :
    ((migrateChannel (Except.ok [msgOneFile]) okOracle badSink).2
        = Except.error ("sink down".toList)) ∧
    ((migrateChannel (Except.ok [msgOneFile]) okOracle badSink).1.posted = []) ∧
    ((migrateChannel (Except.ok [msgOneFile]) okOracle badSink).1.stats.messagesPosted = 0) ∧
    ((migrateChannel (Except.ok [msgOneFile]) okOracle badSink).1.trace
        = [ProgressEvent.fetching, ProgressEvent.error ("sink down".toList)]) :=
  ⟨rfl, rfl, rfl, rfl⟩

/-- Claim C8 (amended): a sink exception on a per-message progress event
is caught inside the per-file/per-message catches and the run still
completes normally with its single `completed` event; only a sink
exception on the `fetching`, initial `processing` or `completed` events
propagates to the caller (as shown by the counterexample). -/
theorem c8_sink_isolation_amended :
    ∀ (history : List Message) (o : Oracle) (sink : Sink),
      sink ProgressEvent.fetching = Except.ok () →
      (∀ n, sink (ProgressEvent.processing 0 n) = Except.ok ()) →
      (∀ st, sink (ProgressEvent.completed st) = Except.ok ()) →
      ∃ st, (migrateChannel (Except.ok history) o sink).2 = Except.ok st ∧
        ((migrateChannel (Except.ok history) o sink).1.trace.filter isTerminal)
          = [ProgressEvent.completed st] := by
  intro history o sink h1 h2 h3
  unfold migrateChannel
  rw [h1]
  dsimp only
  rw [h2]
  dsimp only
  rw [h3]
  dsimp only
  refine ⟨_, rfl, ?_⟩
  obtain ⟨_, _, _, _, _, _, _, _, htr⟩ :=
    procMsgs_stats o sink history.reverse.length history.reverse 0
      (initRun history.reverse)
  rw [List.filter_append, htr]
  rfl

/-- Witness for the amended C8: a sink that throws on every per-message
event still lets the run complete; the sink exceptions are recorded in
the error list (one per-file entry with the url, one per-message entry)
while the message itself was posted. -/
theorem c8_sink_isolation_amended_witness :
    (perMsgThrowSink (ProgressEvent.processing 1 1)
        = Except.error ("sink boom".toList)) ∧
    (∃ st, (migrateChannel (Except.ok [msgOneFile]) okOracle perMsgThrowSink).2
        = Except.ok st ∧
      ((migrateChannel (Except.ok [msgOneFile]) okOracle perMsgThrowSink).1.trace.filter
          isTerminal) = [ProgressEvent.completed st]) ∧
    ((migrateChannel (Except.ok [msgOneFile]) okOracle perMsgThrowSink).1.stats.errors
        = [⟨msgOneFile.id, some cdnUrl1, "sink boom".toList⟩,
           ⟨msgOneFile.id, none, "sink boom".toList⟩]) ∧
    ((migrateChannel (Except.ok [msgOneFile]) okOracle perMsgThrowSink).1.stats.messagesPosted
        = 1) :=
  ⟨rfl,
   c8_sink_isolation_amended [msgOneFile] okOracle perMsgThrowSink rfl
     (fun _ => rfl) (fun _ => rfl),
   by decide, by decide⟩

/-! ## Literal replacement semantics -/

theorem isPrefix_of_isPrefixOf {l s : Str} (h : l.isPrefixOf s = true) :
    List.IsPrefix l s :=
  List.isPrefixOf_iff_prefix.mp h

theorem isInfix_of_isPrefix {l s : Str} (h : List.IsPrefix l s) :
    List.IsInfix l s := by
  obtain ⟨t, ht⟩ := h
  exact ⟨[], t, by simpa using ht⟩

theorem isInfix_cons {l rest : Str} (c : Char) (h : List.IsInfix l rest) :
    List.IsInfix l (c :: rest) := by
  obtain ⟨p, t, hpt⟩ := h
  exact ⟨c :: p, t, by simp [hpt]⟩

theorem replaceAllAux_no_occ (src dst : Str) :
    ∀ (fuel : Nat) (s : Str), ¬ List.IsInfix src s →
      replaceAllAux src dst fuel s = s := by
  intro fuel
  induction fuel with
  | zero => intro s _; rfl
  | succ f ih =>
    intro s hno
    cases s with
    | nil => rfl
    | cons c rest =>
      rw [replaceAllAux]
      rw [if_neg]
      · rw [ih rest (fun hi => hno (isInfix_cons c hi))]
      · rintro ⟨_, hp⟩
        exact hno (isInfix_of_isPrefix (isPrefix_of_isPrefixOf hp))

theorem isPrefixOf_append_self (l t : Str) : l.isPrefixOf (l ++ t) = true :=
  List.isPrefixOf_iff_prefix.mpr ⟨t, rfl⟩

theorem replaceAllAux_fuel (src dst : Str) :
    ∀ (f1 f2 : Nat) (s : Str), s.length ≤ f1 → s.length ≤ f2 →
      replaceAllAux src dst f1 s = replaceAllAux src dst f2 s := by
  intro f1
  induction f1 with
  | zero =>
    intro f2 s h1 _
    have : s = [] := List.eq_nil_of_length_eq_zero (Nat.le_zero.mp h1)
    subst this
    cases f2 <;> rfl
  | succ f ih =>
    intro f2 s h1 h2
    cases s with
    | nil => cases f2 <;> rfl
    | cons c rest =>
      cases f2 with
      | zero => simp at h2
      | succ g =>
        rw [replaceAllAux, replaceAllAux]
        by_cases hc : src ≠ [] ∧ src.isPrefixOf (c :: rest) = true
        · rw [if_pos hc, if_pos hc]
          congr 1
          apply ih
          · have := List.length_drop (src.length - 1) rest
            simp at h1
            omega
          · have := List.length_drop (src.length - 1) rest
            simp at h2
            omega
        · rw [if_neg hc, if_neg hc]
          congr 1
          apply ih
          · simp at h1; omega
          · simp at h2; omega

theorem replaceAllAux_occurrence (src dst : Str) (hsrc : src ≠ []) :
    ∀ (x : Str) (y : Str) (fuel : Nat),
      (x ++ src ++ y).length ≤ fuel →
      (∀ i, i < x.length → src.isPrefixOf ((x ++ src ++ y).drop i) = false) →
      replaceAllAux src dst fuel (x ++ src ++ y) = x ++ dst ++ replaceAll src dst y := by
  intro x
  induction x with
  | nil =>
    intro y fuel hfuel hno
    obtain ⟨a, src', hs⟩ : ∃ a src', src = a :: src' := by
      cases src with
      | nil => exact absurd rfl hsrc
      | cons a b => exact ⟨a, b, rfl⟩
    subst hs
    cases fuel with
    | zero =>
      simp only [List.nil_append, List.length_append, List.length_cons] at hfuel
      omega
    | succ f =>
      simp only [List.nil_append, List.cons_append]
      have hcond : ((a :: src' : Str) ≠ []) ∧
          (a :: src').isPrefixOf (a :: (src' ++ y)) = true := by
        refine ⟨hsrc, ?_⟩
        have h := isPrefixOf_append_self (a :: src') y
        simp only [List.cons_append] at h
        exact h
      rw [replaceAllAux]
      rw [if_pos hcond]
      congr 1
      have hdrop : (src' ++ y).drop ((a :: src').length - 1) = y := by
        simp only [List.length_cons, Nat.add_sub_cancel]
        exact List.drop_left src' y
      rw [hdrop, replaceAll]
      apply replaceAllAux_fuel
      · simp only [List.nil_append, List.length_append, List.length_cons] at hfuel
        omega
      · exact Nat.le_refl _
  | cons a x' ih =>
    intro y fuel hfuel hno
    cases fuel with
    | zero =>
      simp only [List.length_append, List.length_cons] at hfuel
      omega
    | succ f =>
      have h0 := hno 0 (by simp)
      rw [List.drop_zero] at h0
      simp only [List.cons_append] at h0 hfuel ⊢
      have hcond : ¬ ((src ≠ []) ∧ src.isPrefixOf (a :: (x' ++ src ++ y)) = true) := by
        rintro ⟨_, hp⟩
        rw [h0] at hp
        exact Bool.false_ne_true hp
      rw [replaceAllAux]
      rw [if_neg hcond]
      congr 1
      apply ih
      · simp only [List.length_append, List.length_cons] at hfuel ⊢
        omega
      · intro i hi
        have hh := hno (i + 1) (by simp only [List.length_cons]; omega)
        simp only [List.cons_append, List.drop_succ_cons] at hh
        exact hh

/-- Global literal replacement leaves a string without occurrences of the
pattern unchanged. -/
theorem replaceAll_no_occ (src dst s : Str) (h : ¬ List.IsInfix src s) :
    replaceAll src dst s = s :=
  replaceAllAux_no_occ src dst s.length s h

/-- Global literal replacement rewrites an occurrence: if the scan reaches
an occurrence of `src` at position `x.length` without matching earlier,
the occurrence is replaced by `dst` and scanning continues after it. -/
theorem replaceAll_occurrence (src dst : Str) (hsrc : src ≠ []) (x y : Str)
    (hno : ∀ i, i < x.length → src.isPrefixOf ((x ++ src ++ y).drop i) = false) :
    replaceAll src dst (x ++ src ++ y) = x ++ dst ++ replaceAll src dst y :=
  replaceAllAux_occurrence src dst hsrc x y (x ++ src ++ y).length (Nat.le_refl _) hno

/-- A destination url issued by the storage collaborator. -/
def dstUrl1 : Str := "http://local/d/x".toList

/-- A message whose content, embed image and an embed field all reference
the same CDN url. -/
def fieldMsg : Message :=
  { id := "8".toList, ts := 2
    author := { id := "9".toList, username := "u".toList, avatar := none }
    content := ("see ".toList) ++ cdnUrl1
    embeds := [Embed.mk (some cdnUrl1) none none
                [EmbedField.mk ("n".toList) (("go ".toList) ++ cdnUrl1)] none]
    attachments := [] }

/-- A message whose content is just `a`. -/
def msgChain : Message :=
  { id := "7".toList, ts := 0
    author := { id := "9".toList, username := "u".toList, avatar := none }
    content := "a".toList, embeds := [], attachments := [] }

/-- Counterexample for C6: applying the map `{a ↦ b, b ↦ c}` to content
`a` yields `c`, because the entries are applied sequentially and the
second entry rewrites the first entry's output.  The claim requires every
occurrence of the source `a` to be replaced by its own destination `b`,
and the source `b` (absent from the original) to contribute nothing —
i.e. content `b`. -/
theorem c6_chained_map_counterexample :
    ((replaceUrlsInMessage msgChain
        [("a".toList, "b".toList), ("b".toList, "c".toList)]).1 = "c".toList) ∧
    ((replaceUrlsInMessage msgChain
        [("a".toList, "b".toList), ("b".toList, "c".toList)]).1 ≠ "b".toList) := by
  decide

/-- Claim C6 (amended): the rewriter applies the map entries sequentially
in insertion order, each as a global literal substring replacement on the
content, every embed field value and every embed description, and as an
exact-match lookup on embed image/thumbnail/video urls.  Hence for a
single-entry map `{src ↦ dst}`: every text location is the global
replacement of `src` by `dst` (so `src` occurring in several fields is
replaced in all of them), locations without an occurrence of `src` are
unchanged, and each occurrence reached by the left-to-right scan is
rewritten to `dst`.  With several entries, a later entry may further
rewrite an earlier entry's output (see the counterexample). -/
theorem c6_replace_urls_amended :
    ∀ (m : Message) (src dst : Str), src ≠ [] →
      ((replaceUrlsInMessage m [(src, dst)]).1 = replaceAll src dst m.content ∧
       (replaceUrlsInMessage m [(src, dst)]).2
         = m.embeds.map (fun e =>
             Embed.mk (e.image.map (fun u => if u = src then dst else u))
               (e.thumbnail.map (fun u => if u = src then dst else u))
               (e.video.map (fun u => if u = src then dst else u))
               (e.fields.map (fun f => EmbedField.mk f.name (replaceAll src dst f.value)))
               (e.description.map (fun d => replaceAll src dst d)))) ∧
      (∀ s : Str, ¬ List.IsInfix src s → replaceAll src dst s = s) ∧
      (∀ x y : Str,
        (∀ i, i < x.length → src.isPrefixOf ((x ++ src ++ y).drop i) = false) →
        replaceAll src dst (x ++ src ++ y) = x ++ dst ++ replaceAll src dst y) := by
  intro m src dst hsrc
  have hml : ∀ o : Option Str,
      mediaLookup [(src, dst)] o = o.map (fun u => if u = src then dst else u) := by
    intro o
    cases o with
    | none => rfl
    | some u =>
      by_cases h : u = src
      · subst h
        simp [mediaLookup, List.lookup]
      · have hb : (u == src) = false := beq_eq_false_iff_ne.mpr h
        simp [mediaLookup, List.lookup, hb, h]
  refine ⟨⟨rfl, ?_⟩, fun s h => replaceAll_no_occ src dst s h,
    fun x y h => replaceAll_occurrence src dst hsrc x y h⟩
  show m.embeds.map _ = m.embeds.map _
  exact congrArg (fun f => List.map f m.embeds)
    (funext fun e => by simp only [hml]; rfl)

/-- Witness for the amended C6: on a message carrying the same CDN url in
its content, its embed image and an embed field, the single-entry rewrite
is the global literal replacement on every location; and a concrete
occurrence is rewritten by the scan. -/
theorem c6_replace_urls_amended_witness :
    ((replaceUrlsInMessage fieldMsg [(cdnUrl1, dstUrl1)]).1
        = replaceAll cdnUrl1 dstUrl1 fieldMsg.content) ∧
    ((replaceUrlsInMessage fieldMsg [(cdnUrl1, dstUrl1)]).2
        = fieldMsg.embeds.map (fun e =>
            Embed.mk (e.image.map (fun u => if u = cdnUrl1 then dstUrl1 else u))
              (e.thumbnail.map (fun u => if u = cdnUrl1 then dstUrl1 else u))
              (e.video.map (fun u => if u = cdnUrl1 then dstUrl1 else u))
              (e.fields.map (fun f =>
                EmbedField.mk f.name (replaceAll cdnUrl1 dstUrl1 f.value)))
              (e.description.map (fun d => replaceAll cdnUrl1 dstUrl1 d)))) ∧
    (replaceAll cdnUrl1 dstUrl1 (("see ".toList) ++ cdnUrl1 ++ [])
        = ("see ".toList) ++ dstUrl1 ++ replaceAll cdnUrl1 dstUrl1 []) :=
  ⟨(c6_replace_urls_amended fieldMsg cdnUrl1 dstUrl1 (by decide)).1.1,
   (c6_replace_urls_amended fieldMsg cdnUrl1 dstUrl1 (by decide)).1.2,
   (c6_replace_urls_amended fieldMsg cdnUrl1 dstUrl1 (by decide)).2.2
     ("see ".toList) [] (by decide)⟩

/-! ## The extracted urls and the CDN pattern -/

theorem takeWhile_all {p : Char → Bool} :
    ∀ (xs : Str), (∀ a ∈ xs, p a = true) → xs.takeWhile p = xs := by
  intro xs h
  exact List.takeWhile_eq_self_iff.mpr h

theorem dropWhile_all {p : Char → Bool} :
    ∀ (xs : Str), (∀ a ∈ xs, p a = true) → xs.dropWhile p = [] := by
  intro xs h
  exact List.dropWhile_eq_nil_iff.mpr h

theorem takeWhile_middle {p : Char → Bool} {y : Char} (hy : p y = false) :
    ∀ (xs ys : Str), (∀ a ∈ xs, p a = true) →
      (xs ++ y :: ys).takeWhile p = xs ∧ (xs ++ y :: ys).dropWhile p = y :: ys := by
  intro xs
  induction xs with
  | nil =>
    intro ys _
    constructor
    · simp [List.takeWhile_cons, hy]
    · simp [List.dropWhile_cons, hy]
  | cons a xs' ih =>
    intro ys hall
    have ha : p a = true := hall a (List.mem_cons_self a xs')
    obtain ⟨h1, h2⟩ := ih ys (fun b hb => hall b (List.mem_cons_of_mem a hb))
    constructor
    · simp [List.takeWhile_cons, ha, h1]
    · simp [List.dropWhile_cons, ha, h2]

theorem stripCI_replay :
    ∀ (l s r : Str), stripCI l s = some r →
      ∃ pre, s = pre ++ r ∧ pre.length = l.length ∧
        ∀ t, stripCI l (pre ++ t) = some t := by
  intro l
  induction l with
  | nil =>
    intro s r h
    rw [stripCI] at h
    injection h with h
    exact ⟨[], by simp [h], rfl, fun t => by simp [stripCI]⟩
  | cons l0 ls ih =>
    intro s r h
    cases s with
    | nil => exact absurd h (by rw [stripCI]; simp)
    | cons c cs =>
      rw [stripCI] at h
      by_cases hc : lc c = lc l0
      · rw [if_pos hc] at h
        obtain ⟨pre', hpre, hlen, hrep⟩ := ih cs r h
        refine ⟨c :: pre', by simp [hpre], by simp [hlen], ?_⟩
        intro t
        rw [List.cons_append, stripCI, if_pos hc]
        exact hrep t
      · rw [if_neg hc] at h
        exact absurd h (by simp)

theorem stripCI_split :
    ∀ (l pre : Str), l.length ≤ pre.length →
      ∀ t, stripCI l (pre ++ t) = (stripCI l pre).map (fun r => r ++ t) := by
  intro l
  induction l with
  | nil => intro pre _ t; simp [stripCI]
  | cons l0 ls ih =>
    intro pre hlen t
    cases pre with
    | nil => simp at hlen
    | cons c cs =>
      rw [List.cons_append, stripCI, stripCI]
      by_cases hc : lc c = lc l0
      · rw [if_pos hc, if_pos hc]
        exact ih cs (by simp at hlen; omega) t
      · rw [if_neg hc, if_neg hc]
        rfl

theorem hostStrip_replay :
    ∀ (s r : Str), hostStrip s = some r →
      ∃ pre, s = pre ++ r ∧ ∀ t, hostStrip (pre ++ t) = some t := by
  intro s r h
  cases hcdn : stripCI ("cdn.discordapp.com".toList) s with
  | some q =>
    have hq : q = r := by
      rw [hostStrip, hcdn] at h
      exact Option.some.inj h
    subst hq
    obtain ⟨pre, hpre, _, hrep⟩ := stripCI_replay _ s q hcdn
    refine ⟨pre, hpre, fun t => ?_⟩
    rw [hostStrip, hrep t]
  | none =>
    have hmedia : stripCI ("media.discordapp.net".toList) s = some r := by
      rw [hostStrip, hcdn] at h
      exact h
    obtain ⟨pre, hpre, hlen, hrep⟩ := stripCI_replay _ s r hmedia
    refine ⟨pre, hpre, fun t => ?_⟩
    have hll : ("cdn.discordapp.com".toList : Str).length ≤ pre.length := by
      rw [hlen]
      decide
    have hsplit := stripCI_split ("cdn.discordapp.com".toList) pre hll
    have hnone : stripCI ("cdn.discordapp.com".toList) pre = none := by
      cases hp : stripCI ("cdn.discordapp.com".toList) pre with
      | none => rfl
      | some q =>
        have h2 := hsplit r
        rw [hp, ← hpre, hcdn] at h2
        exact absurd h2 (by simp)
    rw [hostStrip, hsplit t, hnone]
    exact hrep t

theorem matchPrefixCdn_replay :
    ∀ (s r : Str), matchPrefixCdn s = some r →
      ∃ pre, s = pre ++ r ∧ ∀ t, matchPrefixCdn (pre ++ t) = some t := by
  intro s r h
  rw [matchPrefixCdn] at h
  cases h1 : stripCI ("http".toList) s with
  | none => rw [h1] at h; exact absurd h (by simp)
  | some s1 =>
    rw [h1] at h
    dsimp only at h
    cases h2 : stripCI ("://".toList) (tryS s1) with
    | none => rw [h2] at h; exact absurd h (by simp)
    | some s3 =>
      rw [h2] at h
      dsimp only at h
      cases h3 : hostStrip s3 with
      | none => rw [h3] at h; exact absurd h (by simp)
      | some s4 =>
        rw [h3] at h
        dsimp only at h
        obtain ⟨p1, hp1, hl1, hr1⟩ := stripCI_replay _ s s1 h1
        obtain ⟨p2, hp2, hl2, hr2⟩ := stripCI_replay _ (tryS s1) s3 h2
        obtain ⟨p3, hp3, hr3⟩ := hostStrip_replay s3 s4 h3
        obtain ⟨p4, hp4, hl4, hr4⟩ := stripCI_replay _ s4 r h
        obtain ⟨c2, p2', hp2e, hc2⟩ : ∃ c2 p2', p2 = c2 :: p2' ∧ lc c2 = ':' := by
          cases hp2c : p2 with
          | nil =>
            exfalso
            rw [hp2c, List.length_nil] at hl2
            exact absurd hl2.symm (by decide)
          | cons c2 p2'' =>
            refine ⟨c2, p2'', rfl, ?_⟩
            have hthis := h2
            rw [hp2, hp2c] at hthis
            have hlit : ("://".toList : Str) = ':' :: ("//".toList) := rfl
            rw [List.cons_append, hlit, stripCI] at hthis
            by_cases hc : lc c2 = lc ':'
            · exact hc
            · rw [if_neg hc] at hthis
              exact absurd hthis (by simp)
        by_cases htry : tryS s1 = s1
        · -- the optional `s` was not consumed
          refine ⟨p1 ++ (p2 ++ (p3 ++ p4)), ?_, ?_⟩
          · rw [hp1, ← htry, hp2, hp3, hp4]
            simp [List.append_assoc]
          · intro t
            have harg : (p1 ++ (p2 ++ (p3 ++ p4))) ++ t
                = p1 ++ (p2 ++ (p3 ++ (p4 ++ t))) := by
              simp [List.append_assoc]
            have htry2 : tryS (p2 ++ (p3 ++ (p4 ++ t))) = p2 ++ (p3 ++ (p4 ++ t)) := by
              rw [hp2e, List.cons_append, tryS]
              rw [if_neg (by rw [hc2]; decide)]
            rw [matchPrefixCdn, harg, hr1]
            dsimp only
            rw [htry2, hr2]
            dsimp only
            rw [hr3]
            dsimp only
            rw [hr4]
        · -- the optional `s` was consumed
          obtain ⟨c, s1', hs1, hsc, htail⟩ :
              ∃ c s1', s1 = c :: s1' ∧ lc c = 's' ∧ tryS s1 = s1' := by
            cases hs1c : s1 with
            | nil =>
              exfalso
              apply htry
              rw [hs1c]
              rfl
            | cons c s1'' =>
              by_cases hsc : lc c = 's'
              · exact ⟨c, s1'', rfl, hsc, by rw [tryS, if_pos hsc]⟩
              · exfalso
                apply htry
                rw [hs1c, tryS, if_neg hsc]
          refine ⟨p1 ++ (c :: (p2 ++ (p3 ++ p4))), ?_, ?_⟩
          · rw [hp1, hs1]
            have : s1' = p2 ++ s3 := by rw [← htail, hp2]
            rw [this, hp3, hp4]
            simp [List.append_assoc]
          · intro t
            have harg : (p1 ++ (c :: (p2 ++ (p3 ++ p4)))) ++ t
                = p1 ++ (c :: (p2 ++ (p3 ++ (p4 ++ t)))) := by
              simp [List.append_assoc]
            have htry2 : tryS (c :: (p2 ++ (p3 ++ (p4 ++ t))))
                = p2 ++ (p3 ++ (p4 ++ t)) := by
              rw [tryS, if_pos hsc]
            rw [matchPrefixCdn, harg, hr1]
            dsimp only
            rw [htry2, hr2]
            dsimp only
            rw [hr3]
            dsimp only
            rw [hr4]

theorem matchCdnAt_some :
    ∀ (s r : Str), matchCdnAt s = some r →
      ∃ pre run1 run2,
        s = (pre ++ run1 ++ '.' :: run2) ++ r ∧
        (∀ t, matchPrefixCdn (pre ++ t) = some t) ∧
        run1 ≠ [] ∧ (∀ a ∈ run1, classBody a = true) ∧
        run2 ≠ [] ∧ (∀ a ∈ run2, classW a = true) := by
  intro s r h
  rw [matchCdnAt] at h
  cases hp : matchPrefixCdn s with
  | none => rw [hp] at h; exact absurd h (by simp)
  | some s5 =>
    rw [hp] at h
    dsimp only at h
    cases hd : s5.dropWhile classBody with
    | nil => rw [hd] at h; exact absurd h (by simp)
    | cons c s7 =>
      rw [hd] at h
      dsimp only at h
      by_cases h1 : s5.takeWhile classBody = []
      · rw [if_pos h1] at h; exact absurd h (by simp)
      · rw [if_neg h1] at h
        by_cases hc : c = '.'
        · rw [if_pos hc] at h
          by_cases h2 : s7.takeWhile classW = []
          · rw [if_pos h2] at h; exact absurd h (by simp)
          · rw [if_neg h2] at h
            injection h with h
            obtain ⟨pre, hpre, hrep⟩ := matchPrefixCdn_replay s s5 hp
            subst hc
            refine ⟨pre, s5.takeWhile classBody, s7.takeWhile classW, ?_, hrep, h1,
              fun a ha => List.mem_takeWhile_imp ha, h2,
              fun a ha => List.mem_takeWhile_imp ha⟩
            have hs5 : s5 = s5.takeWhile classBody ++ ('.' :: s7) := by
              conv_lhs => rw [← List.takeWhile_append_dropWhile classBody s5]
              rw [hd]
            have hs7 : s7 = s7.takeWhile classW ++ r := by
              conv_lhs => rw [← List.takeWhile_append_dropWhile classW s7]
              rw [h]
            conv_lhs => rw [hpre, hs5, hs7]
            simp [List.append_assoc]
        · rw [if_neg hc] at h; exact absurd h (by simp)

theorem matchCdnAt_take :
    ∀ (s r : Str), matchCdnAt s = some r →
      matchCdnAt (s.take (s.length - r.length)) = some [] := by
  intro s r h
  obtain ⟨pre, run1, run2, hs, hrep, h1ne, h1all, h2ne, h2all⟩ := matchCdnAt_some s r h
  have hlen : s.length - r.length = (pre ++ run1 ++ '.' :: run2).length := by
    rw [hs, List.length_append]
    omega
  have htake : s.take (s.length - r.length) = pre ++ run1 ++ '.' :: run2 := by
    rw [hlen, hs]
    exact List.take_left _ _
  rw [htake]
  have hassoc : pre ++ run1 ++ '.' :: run2 = pre ++ (run1 ++ '.' :: run2) := by
    simp [List.append_assoc]
  rw [hassoc, matchCdnAt, hrep (run1 ++ '.' :: run2)]
  dsimp only
  obtain ⟨htw, hdw⟩ :=
    takeWhile_middle (show classBody '.' = false by decide) run1 run2 h1all
  rw [hdw]
  dsimp only
  rw [htw, if_neg h1ne, if_pos rfl, takeWhile_all run2 h2all, if_neg h2ne,
    dropWhile_all run2 h2all]

theorem cdnMatchesAux_full :
    ∀ (fuel : Nat) (s u : Str), u ∈ cdnMatchesAux fuel s → matchCdnAt u = some [] := by
  intro fuel
  induction fuel with
  | zero => intro s u h; exact absurd h (by simp [cdnMatchesAux])
  | succ f ih =>
    intro s u h
    cases s with
    | nil => exact absurd h (by simp [cdnMatchesAux])
    | cons c rest =>
      rw [cdnMatchesAux] at h
      cases hm : matchCdnAt (c :: rest) with
      | none =>
        rw [hm] at h
        exact ih rest u h
      | some r =>
        rw [hm] at h
        rcases List.mem_cons.mp h with he | hmem
        · subst he
          exact matchCdnAt_take (c :: rest) r hm
        · exact ih _ _ hmem

theorem cdnMatches_full :
    ∀ (s u : Str), u ∈ cdnMatches s → matchCdnAt u = some [] :=
  fun s u h => cdnMatchesAux_full s.length s u h

/-- A url that is not a CDN attachment url. -/
def badUrl : Str := "https://example.com/x".toList

/-- A message whose only url is a non-CDN attachment url. -/
def badAttachMsg : Message :=
  { id := "5".toList, ts := 0
    author := { id := "9".toList, username := "u".toList, avatar := none }
    content := [], embeds := [], attachments := [⟨some badUrl⟩] }

/-- Counterexample for C7: an attachment url is returned by
`extractFileUrls` verbatim, without any pattern check — here a url that
does not match the CDN pattern anywhere (and hence is not a full match)
is returned rather than ignored. -/
theorem c7_counterexample_unchecked_attachment :
    (extractFileUrls badAttachMsg = [badUrl]) ∧
    (matchCdnAt badUrl = none) ∧
    (cdnMatches badUrl = []) := by
  decide

/-- Claim C7 (amended): every url extracted from the regex-scanned
locations (embed field values, embed descriptions, message content) is a
full match of the CDN pattern; attachment urls and embed
image/thumbnail/video urls are returned verbatim without pattern
validation, so a url of unrecognisable shape in those locations is
returned rather than ignored. -/
theorem c7_extract_url_shapes_amended :
    ∀ (m : Message) (u : Str), u ∈ extractFileUrls m →
      u ∈ rawRefUrls m ∨ matchCdnAt u = some [] := by
  intro m u hu
  rw [extractFileUrls_eq_dedupFirst] at hu
  have hscan : u ∈ scanUrls m := (mem_dedupFirst _ _).mp hu
  rw [scanUrls] at hscan
  rw [rawRefUrls]
  rcases List.mem_append.mp hscan with hs | hcont
  · rcases List.mem_append.mp hs with hatt | hemb
    · exact Or.inl (List.mem_append.mpr (Or.inl hatt))
    · rw [List.mem_flatten] at hemb
      obtain ⟨l, hl, hul⟩ := hemb
      rw [List.mem_map] at hl
      obtain ⟨e, he, hfe⟩ := hl
      subst hfe
      rcases List.mem_append.mp hul with h4 | hdesc
      · rcases List.mem_append.mp h4 with h3 | hfield
        · left
          apply List.mem_append.mpr
          right
          rw [List.mem_flatten]
          exact ⟨optUrl e.image ++ optUrl e.thumbnail ++ optUrl e.video,
            List.mem_map.mpr ⟨e, he, rfl⟩, h3⟩
        · right
          rw [List.mem_flatten] at hfield
          obtain ⟨l2, hl2, hul2⟩ := hfield
          rw [List.mem_map] at hl2
          obtain ⟨f, _, hfl⟩ := hl2
          subst hfl
          exact cdnMatches_full _ u hul2
      · right
        cases hd : e.description with
        | none =>
          rw [hd] at hdesc
          simp at hdesc
        | some d =>
          rw [hd] at hdesc
          exact cdnMatches_full d u hdesc
  · exact Or.inr (cdnMatches_full m.content u hcont)

/-- Witness for the amended C7: a CDN url appearing in content and embed
locations of a concrete message is extracted, and it is either a raw
structured reference or a full match of the pattern. -/
theorem c7_extract_url_shapes_amended_witness :
    (cdnUrl1 ∈ extractFileUrls fieldMsg) ∧
    (cdnUrl1 ∈ rawRefUrls fieldMsg ∨ matchCdnAt cdnUrl1 = some []) :=
  ⟨by decide, c7_extract_url_shapes_amended fieldMsg cdnUrl1 (by decide)⟩

end DiscordMigrator
